import Mathlib

/-!
Verification of `network_attacks.py` against its specification.

The file shallowly embeds the module's core: the per-step metrics extraction
(`get_attack_metrics`), the quantile summarisation (`scipy.stats.mstats.mquantiles`
followed by the mean substitution at index 1), and the four attack strategies
(`incremental_random_failure`, `instantaneous_random_failure`,
`instantaneous_attack`, `incremental_attack`).

Modelling conventions:
* A networkx graph is a node list (insertion order) plus an undirected edge list.
  The graph-algorithm collaborators the module calls (`nx.shortest_path_length`,
  `nx.is_connected`, `nx.connected_components`, `nx.eccentricity`, `nx.degree`,
  `subgraph`, `remove_nodes_from`) are implemented executably below with the
  same observable semantics on simple graphs.
* Python floats are modelled as rationals; `int(x)` (truncation toward zero) is
  `pyInt`.  NaN / masked entries produced by numpy on empty samples have no
  rational counterpart; they are represented by the fixed sentinel
  `maskedValue`, whose numeric value no theorem relies on.
* Exceptions are modelled with `Except`.  `nx.NetworkXPointlessConcept`
  (connectivity of the null graph; the spec's `EmptyGraphError`) is
  `AttackError.emptyGraph`; the `ValueError` of `random.sample` when the
  requested size exceeds the population (the spec's `OverRemovalError`) is
  `AttackError.overRemoval`.
* In-place mutation of the caller's graph is modelled by state passing: each
  strategy returns the caller-visible graph alongside the (possibly failing)
  result, exactly as the Python caller observes its `net` object after the
  call, including after an escaped exception.
* `random.sample` is an injectable sampler parameter; `IsValidSampler`
  captures its contract (any size-`k` duplicate-free subselection when
  `k ≤ len(population)`, `ValueError` otherwise), so theorems quantify over
  every possible random outcome.
-/

-- Batteries seals the rational-arithmetic kernels; the evaluated witnesses
-- below reduce them definitionally, so restore their natural reducibility.
set_option allowUnsafeReducibility true
attribute [semireducible] Rat.add Rat.mul Rat.inv Rat.sub Rat.div

namespace NetworkAttacks

instance {ε α : Type} [DecidableEq ε] [DecidableEq α] : DecidableEq (Except ε α) := fun a b =>
  match a, b with
  | Except.ok x, Except.ok y =>
      if h : x = y then isTrue (by rw [h]) else isFalse (by intro hc; cases hc; exact h rfl)
  | Except.error x, Except.error y =>
      if h : x = y then isTrue (by rw [h]) else isFalse (by intro hc; cases hc; exact h rfl)
  | Except.ok _, Except.error _ => isFalse (by intro hc; cases hc)
  | Except.error _, Except.ok _ => isFalse (by intro hc; cases hc)

/-- Error kinds escaping the module (see the modelling conventions above). -/
inductive AttackError where
  | emptyGraph
  | overRemoval
deriving Repr, DecidableEq

/-- A networkx-style undirected graph: node list in insertion order plus an
undirected edge list. -/
structure Graph where
  nodes : List Nat
  edges : List (Nat × Nat)
deriving Repr, DecidableEq

/-- Stable insertion of `x` into `l`: `x` is placed before the first `y` with
`le x y`; on ties (`le` both ways) the earlier-encountered element stays first. -/
def insertBy (le : α → α → Bool) (x : α) : List α → List α
  | [] => [x]
  | y :: ys => if le x y then x :: y :: ys else y :: insertBy le x ys

/-- Stable sort by the Boolean preorder `le` (Python's `list.sort` is stable;
a stable sort is extensionally unique, so any stable algorithm models it). -/
def sortBy (le : α → α → Bool) : List α → List α
  | [] => []
  | x :: xs => insertBy le x (sortBy le xs)

/-- Keep the first occurrence of each element (order of first appearance). -/
def dedupFirstAux (seen : List Nat) : List Nat → List Nat
  | [] => []
  | x :: xs =>
    if seen.contains x then dedupFirstAux seen xs
    else x :: dedupFirstAux (x :: seen) xs

def dedupFirst (l : List Nat) : List Nat := dedupFirstAux [] l

/-- Nodes `u` and `v` are joined by an (undirected) edge. -/
def Graph.hasEdge (g : Graph) (u v : Nat) : Bool :=
  g.edges.any (fun e => (e.1 == u && e.2 == v) || (e.1 == v && e.2 == u))

/-- Neighbours of `u`, in node-list order (self-loops excluded; the module's
graphs are simple). -/
def Graph.neighbors (g : Graph) (u : Nat) : List Nat :=
  g.nodes.filter (fun v => (!(v == u)) && g.hasEdge u v)

/-- Model of `nx.degree`: number of neighbours (simple graph). -/
def Graph.degree (g : Graph) (u : Nat) : Nat :=
  (g.neighbors u).length

/-- One BFS frontier expansion after another, with fuel; `dist` accumulates
`(node, distance)` pairs in discovery order. -/
def bfsLoop (g : Graph) : Nat → List (Nat × Nat) → List Nat → Nat → List (Nat × Nat)
  | 0, dist, _, _ => dist
  | fuel + 1, dist, frontier, d =>
    if frontier.isEmpty then dist
    else
      let discovered := dedupFirst
        ((frontier.flatMap g.neighbors).filter (fun v => !(dist.any (fun p => p.1 == v))))
      bfsLoop g fuel (dist ++ discovered.map (fun v => (v, d + 1))) discovered (d + 1)

/-- Single-source shortest-path lengths (BFS), in discovery order: the
per-source dictionary produced by `nx.shortest_path_length`. -/
def Graph.distsFrom (g : Graph) (s : Nat) : List (Nat × Nat) :=
  bfsLoop g g.nodes.length [(s, 0)] [s] 0

/-- Nodes reachable from `s`, in BFS discovery order. -/
def Graph.reachableFrom (g : Graph) (s : Nat) : List Nat :=
  (g.distsFrom s).map Prod.fst

/-- Lines 27-33: flatten all per-source shortest-path dictionaries and drop the
zero-length self-pairs. -/
def shortest_path_sample (net : Graph) : List Nat :=
  ((net.nodes.map (fun s => (net.distsFrom s).map Prod.snd)).flatten).filter
    (fun d => decide (0 < d))

/-- Model of `nx.is_connected`: raises on the null graph (modelled as `emptyGraph`),
otherwise tests whether BFS from the first node reaches every node. -/
def Graph.is_connected (g : Graph) : Except AttackError Bool :=
  match g.nodes with
  | [] => Except.error AttackError.emptyGraph
  | s :: _ => Except.ok ((g.distsFrom s).length == g.nodes.length)

/-- Model of `nx.eccentricity` at one node: maximum BFS distance (the module only asks
this of connected (sub)graphs, where it matches networkx). -/
def Graph.ecc (g : Graph) (u : Nat) : Nat :=
  ((g.distsFrom u).map Prod.snd).foldl Nat.max 0

/-- Model of `nx.connected_components`: components in order of first representative in
the node list, each in BFS discovery order. -/
def Graph.connected_components (g : Graph) : List (List Nat) :=
  g.nodes.foldl
    (fun acc u => if acc.any (fun c => c.contains u) then acc else acc ++ [g.reachableFrom u])
    []

/-- Model of `net.subgraph(s)`: induced subgraph on the nodes of `s`. -/
def Graph.subgraph (g : Graph) (s : List Nat) : Graph :=
  { nodes := g.nodes.filter (fun v => s.contains v)
    edges := g.edges.filter (fun e => s.contains e.1 && s.contains e.2) }

/-- Model of `net.remove_nodes_from(rm)`: drop the listed nodes and their incident
edges (in place in Python; state-passed here). -/
def Graph.remove_nodes_from (g : Graph) (rm : List Nat) : Graph :=
  { nodes := g.nodes.filter (fun v => decide (v ∉ rm))
    edges := g.edges.filter (fun e => decide (e.1 ∉ rm) && decide (e.2 ∉ rm)) }

/-- Sentinel standing for the NaN / masked float entries numpy produces on
empty samples; no theorem below depends on its numeric value. -/
def maskedValue : ℚ := 0

/-- Model of `np.mean`: arithmetic mean; NaN (here `maskedValue`) on an empty sample. -/
def npMean (l : List ℚ) : ℚ :=
  if l.length = 0 then maskedValue else l.sum / (l.length : ℚ)

/-- Per-step metrics record returned by `get_attack_metrics` (lines 51-55). -/
structure AttackMetrics where
  shortest_paths : List Nat
  eccentricities : List Nat
  cluster_sizes : ℚ × ℚ
deriving Repr, DecidableEq

/-- Lines 13-57: `get_attack_metrics`. -/
def get_attack_metrics (net : Graph) : Except AttackError AttackMetrics :=
  let nodes := net.nodes
  let shortest_path_list := shortest_path_sample net
  match net.is_connected with
  | Except.error e => Except.error e
  | Except.ok true =>
      Except.ok
        { shortest_paths := shortest_path_list
          eccentricities := net.nodes.map net.ecc
          cluster_sizes := (1, 1) }
  | Except.ok false =>
      let components := sortBy (fun a b => decide (List.length b ≤ List.length a))
        net.connected_components
      let cluster_sizes := components.map (fun c => ((c.length : ℚ) / (nodes.length : ℚ)))
      let avg_size_isolated_clusters := npMean ((components.drop 1).map (fun c => (c.length : ℚ)))
      let relative_size_largest_cluster := cluster_sizes.headD 0
      let largest_component := components.headD []
      let largest_subgraph := net.subgraph largest_component
      Except.ok
        { shortest_paths := shortest_path_list
          eccentricities := largest_subgraph.nodes.map largest_subgraph.ecc
          cluster_sizes := (relative_size_largest_cluster, avg_size_isolated_clusters) }

/-- Python `int(q)`: truncation toward zero. -/
def pyInt (q : ℚ) : ℤ := Int.tdiv q.num q.den

/-- The count `int(original_net_size * ratio_removed)`: the per-step removal count (for
the nonnegative rates the module is used with; counts are natural numbers). -/
def pyCount (original_net_size : Nat) (ratio_removed : ℚ) : Nat :=
  (pyInt ((original_net_size : ℚ) * ratio_removed)).toNat

/-- Model of `scipy.stats.mstats.mquantiles` at one probability `p` with the default
plotting positions `alphap = betap = 0.4`: sort the data, take
`aleph = n*p + (0.4 + 0.2*p)`, clip `k = floor(clip(aleph, 1, n-1))`,
`gamma = clip(aleph - k, 0, 1)`, and interpolate between the order statistics
`x[k-1]` and `x[k]`.  Empty data yields a masked entry; a single datum is
returned unchanged. -/
def mquantile1 (data : List ℚ) (p : ℚ) : ℚ :=
  let x := sortBy (fun a b => decide (a ≤ b)) data
  let n := data.length
  if n = 0 then maskedValue
  else if n = 1 then x.headD 0
  else
    let m : ℚ := 2/5 + p * (1 - 2/5 - 2/5)
    let aleph : ℚ := (n : ℚ) * p + m
    let k : ℤ := ⌊max 1 (min aleph ((n : ℚ) - 1))⌋
    let gamma : ℚ := max 0 (min (aleph - (k : ℚ)) 1)
    (1 - gamma) * x.getD (k - 1).toNat 0 + gamma * x.getD k.toNat 0

/-- Model of `mstats.mquantiles(sample, axis=0)` with the default probability vector
`[0.25, 0.5, 0.75]`: always a 3-entry row. -/
def mquantiles (data : List ℚ) : List ℚ :=
  [mquantile1 data (1/4), mquantile1 data (1/2), mquantile1 data (3/4)]

/-- Lines 87-92 (identical in all four strategies): quantile row for a sample
with the 50th-percentile slot overwritten by the arithmetic mean
(`q[1] = np.mean(sample)`). -/
def summarize (sample : List ℚ) : List ℚ :=
  (mquantiles sample).set 1 (npMean sample)

/-- The per-strategy accumulator for the quantile rows: `None` before the
first step; after one step the bare 3-entry row (numpy shape `(3,)`); once
`np.vstack` has run, a 2-D array of rows (numpy shape `(k, 3)`). -/
inductive PathAcc where
  | flat (row : List ℚ)
  | stacked (rows : List (List ℚ))
deriving Repr, DecidableEq

/-- Model of `acc = np.vstack([acc, q]) if acc is not None else q`. -/
def vstackAppend : Option PathAcc → List ℚ → Option PathAcc
  | none, q => some (PathAcc.flat q)
  | some (PathAcc.flat r), q => some (PathAcc.stacked [r, q])
  | some (PathAcc.stacked rs), q => some (PathAcc.stacked (rs ++ [q]))

/-- The triple a strategy returns: `(min_path, max_path, cluster_size_ratios)`. -/
structure AttackResult where
  min_path : Option PathAcc
  max_path : Option PathAcc
  cluster_size_ratios : List (ℚ × ℚ)
deriving Repr, DecidableEq

def emptyResult : AttackResult := ⟨none, none, []⟩

/-- Lines 85-96 (shared verbatim by all four strategies): compute both quantile
rows from the step's metrics, overwrite each middle slot with the mean, stack
them onto the accumulators and append the cluster-size pair. -/
def recordStep (res : AttackResult) (metrics : AttackMetrics) : AttackResult :=
  { min_path := vstackAppend res.min_path
      (summarize (metrics.shortest_paths.map (fun n => (n : ℚ))))
    max_path := vstackAppend res.max_path
      (summarize (metrics.eccentricities.map (fun n => (n : ℚ))))
    cluster_size_ratios := res.cluster_size_ratios ++ [metrics.cluster_sizes] }

/-- The injectable model of `random.sample(population, k)`. -/
abbrev Sampler := List Nat → Nat → Except AttackError (List Nat)

/-- Contract of `random.sample`: on a duplicate-free population with
`k ≤ len(population)` it succeeds with some `k` distinct members; when `k`
exceeds the population it raises `ValueError` (the spec's `OverRemovalError`). -/
structure IsValidSampler (sampler : Sampler) : Prop where
  ok_of_le : ∀ l k, l.Nodup → k ≤ l.length →
    ∃ out, sampler l k = Except.ok out ∧ out.length = k ∧ out.Nodup ∧ ∀ x ∈ out, x ∈ l
  error_of_gt : ∀ l k, l.length < k → sampler l k = Except.error AttackError.overRemoval

/-- A concrete admissible sampler (used by the evaluated witnesses): take the
first `k` nodes. -/
def takeSampler : Sampler := fun l k =>
  if k ≤ l.length then Except.ok (l.take k) else Except.error AttackError.overRemoval

/-- Lines 79-85 and 119-125 (the random-selection step, shared by the
incremental and the instantaneous variant): sample
`int(original_net_size * ratio_removed)` of the current nodes, remove them,
and extract the metrics.  The returned graph is the state of the step's
working graph when control leaves the step (unchanged if `random.sample`
raised, the shrunk graph otherwise — also when `get_attack_metrics` raised). -/
def random_failure_step (sampler : Sampler) (original_net_size : Nat) (ratio_removed : ℚ)
    (g : Graph) : Graph × Except AttackError AttackMetrics :=
  match sampler g.nodes (pyCount original_net_size ratio_removed) with
  | Except.error e => (g, Except.error e)
  | Except.ok removed_nodes =>
      let attacked_net := g.remove_nodes_from removed_nodes
      (attacked_net, get_attack_metrics attacked_net)

/-- Lines 159-166 and 205-212 (identical in both degree-targeted variants):
pair every node with its degree, sort by degree descending (Python's stable
sort with `reverse=True`), and keep the first
`num_removed_nodes` node ids.  Python's slice silently clamps when the list is
shorter than the requested count. -/
def selectTopDegree (g : Graph) (num_removed_nodes : Nat) : List Nat :=
  let connectivities := sortBy (fun a b => decide (b.2 ≤ a.2))
    (g.nodes.map (fun u => (u, g.degree u)))
  (connectivities.take num_removed_nodes).map Prod.fst

/-- Lines 159-171 and 205-217 (the degree-targeted step, shared by the
incremental and the instantaneous variant). -/
def degree_attack_step (original_net_size : Nat) (ratio_removed : ℚ) (g : Graph) :
    Graph × Except AttackError AttackMetrics :=
  let removed_nodes := selectTopDegree g (pyCount original_net_size ratio_removed)
  let attacked_net := g.remove_nodes_from removed_nodes
  (attacked_net, get_attack_metrics attacked_net)

/-- Lines 77-96: the loop of `incremental_random_failure`, threading the one
persistent (caller-aliased) graph through the steps.  On an escaped exception
the caller observes the mutations performed so far. -/
def incRandLoop (sampler : Sampler) (original_net_size : Nat) (removal_rate : ℚ) :
    Nat → Graph → AttackResult → Graph × Except AttackError AttackResult
  | 0, g, res => (g, Except.ok res)
  | n + 1, g, res =>
      let s := random_failure_step sampler original_net_size removal_rate g
      match s.2 with
      | Except.error e => (s.1, Except.error e)
      | Except.ok metrics =>
          incRandLoop sampler original_net_size removal_rate n s.1 (recordStep res metrics)

/-- Lines 60-98: `incremental_random_failure(net, removal_rate, max_rate=0.5)`.
`steps = int(max_rate / removal_rate)`; `attacked_net = net` aliases the
caller's graph, whose final state is returned alongside the result. -/
def incremental_random_failure (sampler : Sampler) (net : Graph) (removal_rate : ℚ)
    (max_rate : ℚ) : Graph × Except AttackError AttackResult :=
  incRandLoop sampler net.nodes.length removal_rate
    (pyInt (max_rate / removal_rate)).toNat net emptyResult

/-- Lines 115-136: the loop of `instantaneous_random_failure` — each entry of
the rate sequence starts from a fresh `copy.deepcopy(net)` (pure values make
the copy literal), so removals never touch the caller's graph. -/
def instRandLoop (sampler : Sampler) (net : Graph) (original_net_size : Nat) :
    List ℚ → AttackResult → Except AttackError AttackResult
  | [], res => Except.ok res
  | ratio_removed :: rest, res =>
      match (random_failure_step sampler original_net_size ratio_removed net).2 with
      | Except.error e => Except.error e
      | Except.ok metrics => instRandLoop sampler net original_net_size rest (recordStep res metrics)

/-- Lines 101-138: `instantaneous_random_failure(net, removal_rates)`; the
caller's graph (returned first) is never mutated. -/
def instantaneous_random_failure (sampler : Sampler) (net : Graph) (removal_rates : List ℚ) :
    Graph × Except AttackError AttackResult :=
  (net, instRandLoop sampler net net.nodes.length removal_rates emptyResult)

/-- Lines 155-182: the loop of `instantaneous_attack` — degree-targeted
selection on a fresh deep copy per rate entry. -/
def instAttackLoop (net : Graph) (original_net_size : Nat) :
    List ℚ → AttackResult → Except AttackError AttackResult
  | [], res => Except.ok res
  | ratio_removed :: rest, res =>
      match (degree_attack_step original_net_size ratio_removed net).2 with
      | Except.error e => Except.error e
      | Except.ok metrics => instAttackLoop net original_net_size rest (recordStep res metrics)

/-- Lines 141-184: `instantaneous_attack(net, removal_rates)`; the caller's
graph (returned first) is never mutated. -/
def instantaneous_attack (net : Graph) (removal_rates : List ℚ) :
    Graph × Except AttackError AttackResult :=
  (net, instAttackLoop net net.nodes.length removal_rates emptyResult)

/-- Lines 202-228: the loop of `incremental_attack` — degree-targeted
selection on the one persistent (caller-aliased) graph, one step per entry of
the caller-supplied rate sequence. -/
def incAttackLoop (original_net_size : Nat) :
    List ℚ → Graph → AttackResult → Graph × Except AttackError AttackResult
  | [], g, res => (g, Except.ok res)
  | ratio_removed :: rest, g, res =>
      let s := degree_attack_step original_net_size ratio_removed g
      match s.2 with
      | Except.error e => (s.1, Except.error e)
      | Except.ok metrics => incAttackLoop original_net_size rest s.1 (recordStep res metrics)

/-- Lines 187-230: `incremental_attack(net, removal_rates)`.  Note the
signature: like the instantaneous variants it takes an explicit rate sequence
(`for ratio_removed in removal_rates`), not a removal-rate scalar with a
`max_rate` cap. -/
def incremental_attack (net : Graph) (removal_rates : List ℚ) :
    Graph × Except AttackError AttackResult :=
  incAttackLoop net.nodes.length removal_rates net emptyResult

/-! ### Observers used to state the claims -/

/-- Success test for a strategy or metrics outcome. -/
def okB {α : Type} : Except AttackError α → Bool
  | Except.ok _ => true
  | Except.error _ => false

/-- Number of completed steps of a successful run (one cluster-size pair is
appended per step); `none` on a failed run. -/
def okStepCount (x : Graph × Except AttackError AttackResult) : Option Nat :=
  match x.2 with
  | Except.ok res => some res.cluster_size_ratios.length
  | Except.error _ => none

/-- The error a failed run escaped with, if any. -/
def errOf (x : Graph × Except AttackError AttackResult) : Option AttackError :=
  match x.2 with
  | Except.error e => some e
  | Except.ok _ => none

/-- Cluster-size summary of a metrics outcome. -/
def clusterOf (x : Except AttackError AttackMetrics) : Option (ℚ × ℚ) :=
  match x with
  | Except.ok m => some m.cluster_sizes
  | Except.error _ => none

/-- Row count of an accumulator (a bare row counts as one). -/
def accRows : Option PathAcc → Nat
  | none => 0
  | some (PathAcc.flat _) => 1
  | some (PathAcc.stacked rs) => rs.length

/-- Is the accumulator a bare (1-D) row? -/
def accIsFlat : Option PathAcc → Bool
  | some (PathAcc.flat _) => true
  | _ => false

/-- Shape of the `min_path` component of a successful run: whether it is a
bare row, and its row count. -/
def okMinShape (x : Graph × Except AttackError AttackResult) : Option (Bool × Nat) :=
  match x.2 with
  | Except.ok res => some (accIsFlat res.min_path, accRows res.min_path)
  | Except.error _ => none

/-- Shape of the `max_path` component of a successful run. -/
def okMaxShape (x : Graph × Except AttackError AttackResult) : Option (Bool × Nat) :=
  match x.2 with
  | Except.ok res => some (accIsFlat res.max_path, accRows res.max_path)
  | Except.error _ => none

/-! ### Concrete graphs for the evaluated witnesses -/

/-- Triangle (3-clique). -/
def K3 : Graph := ⟨[0, 1, 2], [(0, 1), (0, 2), (1, 2)]⟩

/-- 4-clique. -/
def K4 : Graph := ⟨[0, 1, 2, 3], [(0, 1), (0, 2), (0, 3), (1, 2), (1, 3), (2, 3)]⟩

/-- 5-clique (the spec's end-to-end scenario 2 graph). -/
def K5 : Graph :=
  ⟨[0, 1, 2, 3, 4],
   [(0, 1), (0, 2), (0, 3), (0, 4), (1, 2), (1, 3), (1, 4), (2, 3), (2, 4), (3, 4)]⟩

/-- Path on five nodes. -/
def P5 : Graph := ⟨[0, 1, 2, 3, 4], [(0, 1), (1, 2), (2, 3), (3, 4)]⟩

/-- Star with centre 0 and three leaves. -/
def Star4 : Graph := ⟨[0, 1, 2, 3], [(0, 1), (0, 2), (0, 3)]⟩

/-! ### Sorting infrastructure lemmas -/

theorem insertBy_perm (le : α → α → Bool) (x : α) (l : List α) :
    List.Perm (insertBy le x l) (x :: l) := by
  induction l with
  | nil => simp [insertBy]
  | cons y ys ih =>
      by_cases h : le x y = true
      · simp [insertBy, h]
      · simp only [insertBy, h, if_false]
        exact (ih.cons y).trans (List.Perm.swap x y ys)

theorem sortBy_perm (le : α → α → Bool) (l : List α) : List.Perm (sortBy le l) l := by
  induction l with
  | nil => simp [sortBy]
  | cons x xs ih => exact (insertBy_perm le x (sortBy le xs)).trans (ih.cons x)

theorem insertBy_pairwise (le : α → α → Bool)
    (htot : ∀ a b, le a b = true ∨ le b a = true)
    (htrans : ∀ a b c, le a b = true → le b c = true → le a c = true)
    (x : α) (l : List α) (h : l.Pairwise (fun a b => le a b = true)) :
    (insertBy le x l).Pairwise (fun a b => le a b = true) := by
  induction l with
  | nil => simp [insertBy]
  | cons y ys ih =>
      rcases List.pairwise_cons.mp h with ⟨hy, hys⟩
      by_cases hxy : le x y = true
      · simp only [insertBy, hxy, if_true]
        refine List.pairwise_cons.mpr ⟨?_, h⟩
        intro z hz
        rcases List.mem_cons.mp hz with rfl | hz'
        · exact hxy
        · exact htrans x y z hxy (hy z hz')
      · simp only [insertBy, hxy, if_false]
        refine List.pairwise_cons.mpr ⟨?_, ih hys⟩
        intro z hz
        rcases List.mem_cons.mp ((insertBy_perm le x ys).mem_iff.mp hz) with hzx | hz'
        · subst hzx
          rcases htot z y with hc | hc
          · exact absurd hc hxy
          · exact hc
        · exact hy z hz'

theorem sortBy_pairwise (le : α → α → Bool)
    (htot : ∀ a b, le a b = true ∨ le b a = true)
    (htrans : ∀ a b c, le a b = true → le b c = true → le a c = true)
    (l : List α) : (sortBy le l).Pairwise (fun a b => le a b = true) := by
  induction l with
  | nil => simp [sortBy]
  | cons x xs ih => exact insertBy_pairwise le htot htrans x (sortBy le xs) ih

/-! ### Counting removals -/

/-- Removing a duplicate-free sublist `rm` of a duplicate-free list `l`
removes exactly `rm.length` entries. -/
theorem length_filter_not_mem (l rm : List Nat) (hl : l.Nodup) (hrm : rm.Nodup)
    (hsub : ∀ x ∈ rm, x ∈ l) :
    (l.filter (fun v => decide (v ∉ rm))).length + rm.length = l.length := by
  induction l generalizing rm with
  | nil =>
      have : rm = [] := List.eq_nil_iff_forall_not_mem.mpr (fun x hx => by simpa using hsub x hx)
      simp [this]
  | cons a l ih =>
      rcases List.nodup_cons.mp hl with ⟨hal, hl'⟩
      by_cases ha : a ∈ rm
      · have hfa : decide (a ∉ rm) = false := by simp [ha]
        have hcong : l.filter (fun v => decide (v ∉ rm))
            = l.filter (fun v => decide (v ∉ rm.erase a)) := by
          apply List.filter_congr
          intro v hv
          have hva : v ≠ a := fun hva => hal (hva ▸ hv)
          simp [List.mem_erase_of_ne hva]
        have hsub' : ∀ x ∈ rm.erase a, x ∈ l := by
          intro x hx
          have hxa : x ≠ a := ((List.Nodup.mem_erase_iff hrm).mp hx).1
          rcases List.mem_cons.mp (hsub x (List.mem_of_mem_erase hx)) with rfl | h
          · exact absurd rfl hxa
          · exact h
        have hih := ih (rm.erase a) hl' (hrm.erase a) hsub'
        have hlen : (rm.erase a).length + 1 = rm.length := by
          simpa using List.length_erase_add_one ha
        simp only [List.filter_cons, hfa, Bool.false_eq_true, if_false, hcong, List.length_cons]
        omega
      · have hfa : decide (a ∉ rm) = true := by simp [ha]
        have hsub' : ∀ x ∈ rm, x ∈ l := by
          intro x hx
          rcases List.mem_cons.mp (hsub x hx) with rfl | h
          · exact absurd hx ha
          · exact h
        have hih := ih rm hl' hrm hsub'
        simp only [List.filter_cons, hfa, if_true, List.length_cons]
        omega

/-! ### Sampler and metrics lemmas -/

theorem takeSampler_valid : IsValidSampler takeSampler where
  ok_of_le := by
    intro l k hnd hk
    refine ⟨l.take k, ?_, ?_, hnd.sublist (List.take_sublist k l), fun x hx => List.take_subset k l hx⟩
    · simp [takeSampler, hk]
    · simp [List.length_take, Nat.min_eq_left hk]
  error_of_gt := by
    intro l k h
    simp [takeSampler, Nat.not_le.mpr h]

theorem is_connected_error (g : Graph) (e : AttackError)
    (h : g.is_connected = Except.error e) : e = AttackError.emptyGraph := by
  unfold Graph.is_connected at h
  cases hn : g.nodes with
  | nil => rw [hn] at h; simp at h; exact h.symm
  | cons s t => rw [hn] at h; simp at h

theorem get_attack_metrics_empty (net : Graph) (h : net.nodes = []) :
    get_attack_metrics net = Except.error AttackError.emptyGraph := by
  simp [get_attack_metrics, Graph.is_connected, h]

theorem get_attack_metrics_ok_nonempty (net : Graph)
    (h : okB (get_attack_metrics net) = true) : net.nodes ≠ [] := by
  intro hnil
  rw [get_attack_metrics_empty net hnil] at h
  simp [okB] at h

theorem get_attack_metrics_ne_overRemoval (net : Graph) :
    get_attack_metrics net ≠ Except.error AttackError.overRemoval := by
  intro hc
  unfold get_attack_metrics at hc
  cases h : net.is_connected with
  | error e =>
      rw [h] at hc
      simp at hc
      rw [is_connected_error net e h] at hc
      cases hc
  | ok b => rw [h] at hc; cases b <;> simp at hc

/-! ### Step-level lemmas -/

theorem random_step_ok (sampler : Sampler) (hs : IsValidSampler sampler)
    (orig : Nat) (rate : ℚ) (g : Graph) (hnd : g.nodes.Nodup)
    (h : okB (random_failure_step sampler orig rate g).2 = true) :
    (random_failure_step sampler orig rate g).1.nodes.length + pyCount orig rate
      = g.nodes.length
    ∧ (∀ x ∈ (random_failure_step sampler orig rate g).1.nodes, x ∈ g.nodes)
    ∧ (random_failure_step sampler orig rate g).1.nodes.Nodup := by
  cases hsamp : sampler g.nodes (pyCount orig rate) with
  | error e => simp [random_failure_step, hsamp, okB] at h
  | ok removed =>
      have hk : pyCount orig rate ≤ g.nodes.length := by
        by_contra hgt
        rw [hs.error_of_gt g.nodes _ (Nat.lt_of_not_le hgt)] at hsamp
        cases hsamp
      obtain ⟨out, hout, hlen, hnd2, hsubs⟩ := hs.ok_of_le g.nodes _ hnd hk
      rw [hsamp] at hout
      cases hout
      have key := length_filter_not_mem g.nodes removed hnd hnd2 hsubs
      refine ⟨?_, ?_, ?_⟩
      · simp only [random_failure_step, hsamp, Graph.remove_nodes_from]
        rw [← hlen]
        exact key
      · intro x hx
        simp only [random_failure_step, hsamp, Graph.remove_nodes_from] at hx
        exact (List.mem_filter.mp hx).1
      · simp only [random_failure_step, hsamp, Graph.remove_nodes_from]
        exact hnd.filter _

theorem selectTopDegree_subset (g : Graph) (num : Nat) :
    ∀ x ∈ selectTopDegree g num, x ∈ g.nodes := by
  intro x hx
  unfold selectTopDegree at hx
  rcases List.mem_map.mp hx with ⟨p, hp, rfl⟩
  have hp2 := List.take_subset _ _ hp
  have hp3 := (sortBy_perm _ _).mem_iff.mp hp2
  rcases List.mem_map.mp hp3 with ⟨u, hu, rfl⟩
  exact hu

theorem selectTopDegree_nodup (g : Graph) (num : Nat) (hnd : g.nodes.Nodup) :
    (selectTopDegree g num).Nodup := by
  unfold selectTopDegree
  have hperm : List.Perm
      ((sortBy (fun a b => decide (b.2 ≤ a.2)) (g.nodes.map (fun u => (u, g.degree u)))).map
        Prod.fst)
      ((g.nodes.map (fun u => (u, g.degree u))).map Prod.fst) :=
    (sortBy_perm _ _).map Prod.fst
  have hid : (g.nodes.map (fun u => (u, g.degree u))).map Prod.fst = g.nodes := by
    rw [List.map_map]
    exact List.map_id'' (fun u => rfl) _
  rw [hid] at hperm
  have h1 := (hperm.nodup_iff).mpr hnd
  rw [List.map_take]
  exact h1.sublist (List.take_sublist _ _)

theorem selectTopDegree_length (g : Graph) (num : Nat) :
    (selectTopDegree g num).length = min num g.nodes.length := by
  unfold selectTopDegree
  simp [List.length_take, (sortBy_perm _ _).length_eq]

/-- The degree-domination property of the stable top-degree selection: every
selected node's degree is at least every unselected node's degree. -/
theorem selectTopDegree_dominates (g : Graph) (num : Nat) :
    ∀ x ∈ selectTopDegree g num, ∀ y ∈ g.nodes, y ∉ selectTopDegree g num →
      g.degree y ≤ g.degree x := by
  intro x hx y hy hyn
  set le := fun (a b : Nat × Nat) => decide (b.2 ≤ a.2) with hle
  set pairs := g.nodes.map (fun u => (u, g.degree u)) with hpairs
  set sorted := sortBy le pairs with hsorted
  have htot : ∀ a b, le a b = true ∨ le b a = true := by
    intro a b
    rcases Nat.le_total b.2 a.2 with hc | hc
    · exact Or.inl (by simp [hle, hc])
    · exact Or.inr (by simp [hle, hc])
  have htrans : ∀ a b c, le a b = true → le b c = true → le a c = true := by
    intro a b c hab hbc
    simp only [hle, decide_eq_true_eq] at *
    omega
  have hpair : sorted.Pairwise (fun a b => le a b = true) := sortBy_pairwise le htot htrans pairs
  have hsplit : sorted = sorted.take num ++ sorted.drop num := (List.take_append_drop num sorted).symm
  have hcross := (List.pairwise_append.mp (hsplit ▸ hpair)).2.2
  rcases List.mem_map.mp hx with ⟨p, hp, hpx⟩
  have hpdeg : p.2 = g.degree p.1 := by
    have hp3 := (sortBy_perm le pairs).mem_iff.mp (List.take_subset _ _ hp)
    rcases List.mem_map.mp hp3 with ⟨u, _, rfl⟩
    rfl
  have hymem : (y, g.degree y) ∈ sorted :=
    (sortBy_perm le pairs).mem_iff.mpr (List.mem_map.mpr ⟨y, hy, rfl⟩)
  have hydrop : (y, g.degree y) ∈ sorted.drop num := by
    rcases List.mem_append.mp (hsplit ▸ hymem) with hin | hin
    · exact absurd (List.mem_map.mpr ⟨(y, g.degree y), hin, rfl⟩) hyn
    · exact hin
  have := hcross p hp (y, g.degree y) hydrop
  simp only [hle, decide_eq_true_eq] at this
  rw [hpdeg, hpx] at this
  exact this

theorem degree_step_ok (orig : Nat) (rate : ℚ) (g : Graph) (hnd : g.nodes.Nodup)
    (h : okB (degree_attack_step orig rate g).2 = true) :
    (degree_attack_step orig rate g).1.nodes.length + pyCount orig rate = g.nodes.length
    ∧ (∀ x ∈ (degree_attack_step orig rate g).1.nodes, x ∈ g.nodes)
    ∧ (degree_attack_step orig rate g).1.nodes.Nodup := by
  have hne : (degree_attack_step orig rate g).1.nodes ≠ [] := by
    apply get_attack_metrics_ok_nonempty
    exact h
  have key := length_filter_not_mem g.nodes (selectTopDegree g (pyCount orig rate)) hnd
    (selectTopDegree_nodup g _ hnd) (selectTopDegree_subset g _)
  have hfst : (degree_attack_step orig rate g).1.nodes
      = g.nodes.filter (fun v => decide (v ∉ selectTopDegree g (pyCount orig rate))) := rfl
  have hlen := selectTopDegree_length g (pyCount orig rate)
  have hnum : min (pyCount orig rate) g.nodes.length = pyCount orig rate := by
    rcases Nat.le_total (pyCount orig rate) g.nodes.length with hc | hc
    · exact Nat.min_eq_left hc
    · by_contra
      have hmin : min (pyCount orig rate) g.nodes.length = g.nodes.length := Nat.min_eq_right hc
      have hzero : (degree_attack_step orig rate g).1.nodes.length = 0 := by
        rw [hfst]
        omega
      exact hne (List.eq_nil_of_length_eq_zero (hfst ▸ hzero))
  refine ⟨?_, ?_, ?_⟩
  · rw [hfst]
    omega
  · intro x hx
    rw [hfst] at hx
    exact (List.mem_filter.mp hx).1
  · rw [hfst]
    exact hnd.filter _

/-! ### Accumulator-shape infrastructure -/

/-- Shape invariant maintained by the `np.vstack` accumulation: the value is a
bare row exactly when one row has been recorded, and a stacked array holds at
least two rows. -/
def accInv (o : Option PathAcc) : Prop :=
  accIsFlat o = decide (accRows o = 1)
  ∧ ∀ rs, o = some (PathAcc.stacked rs) → 2 ≤ rs.length

theorem accInv_none : accInv none := by
  constructor
  · rfl
  · intro rs h; cases h

theorem accRows_none : accRows (none : Option PathAcc) = 0 := rfl

theorem vstack_rows (o : Option PathAcc) (q : List ℚ) :
    accRows (vstackAppend o q) = accRows o + 1 := by
  match o with
  | none => rfl
  | some (PathAcc.flat r) => rfl
  | some (PathAcc.stacked rs) => simp [vstackAppend, accRows]

theorem vstack_inv (o : Option PathAcc) (q : List ℚ) (h : accInv o) :
    accInv (vstackAppend o q) := by
  match o with
  | none =>
      constructor
      · rfl
      · intro rs hrs; cases hrs
  | some (PathAcc.flat r) =>
      constructor
      · rfl
      · intro rs hrs
        simp only [vstackAppend] at hrs
        cases hrs
        simp
  | some (PathAcc.stacked rs0) =>
      have h2 := h.2 rs0 rfl
      constructor
      · simp only [vstackAppend, accIsFlat, accRows, List.length_append]
        have : rs0.length + 1 ≠ 1 := by omega
        simp [this]
      · intro rs hrs
        simp only [vstackAppend] at hrs
        cases hrs
        simp only [List.length_append]
        omega

/-! ### Loop lemmas -/

theorem incRandLoop_succ (sampler : Sampler) (orig : Nat) (rate : ℚ) (n : Nat)
    (g : Graph) (res : AttackResult) :
    incRandLoop sampler orig rate (n + 1) g res =
      (match (random_failure_step sampler orig rate g).2 with
       | Except.error e => ((random_failure_step sampler orig rate g).1, Except.error e)
       | Except.ok metrics =>
           incRandLoop sampler orig rate n (random_failure_step sampler orig rate g).1
             (recordStep res metrics)) := rfl

theorem incRandLoop_ok (sampler : Sampler) (orig : Nat) (rate : ℚ) :
    ∀ (n : Nat) (g : Graph) (res : AttackResult) (g' : Graph) (res' : AttackResult),
      incRandLoop sampler orig rate n g res = (g', Except.ok res') →
      res'.cluster_size_ratios.length = res.cluster_size_ratios.length + n
      ∧ accRows res'.min_path = accRows res.min_path + n
      ∧ accRows res'.max_path = accRows res.max_path + n
      ∧ (accInv res.min_path → accInv res'.min_path)
      ∧ (accInv res.max_path → accInv res'.max_path) := by
  intro n
  induction n with
  | zero =>
      intro g res g' res' h
      simp only [incRandLoop, Prod.mk.injEq, Except.ok.injEq] at h
      obtain ⟨-, rfl⟩ := h
      simp
  | succ n ih =>
      intro g res g' res' h
      rw [incRandLoop_succ] at h
      cases hstep : (random_failure_step sampler orig rate g).2 with
      | error e => rw [hstep] at h; simp at h
      | ok m =>
          rw [hstep] at h
          obtain ⟨h1, h2, h3, h4, h5⟩ := ih _ _ _ _ h
          refine ⟨?_, ?_, ?_, ?_, ?_⟩
          · simp only [recordStep, List.length_append, List.length_singleton] at h1
            omega
          · rw [h2]; simp only [recordStep, vstack_rows]; omega
          · rw [h3]; simp only [recordStep, vstack_rows]; omega
          · intro hinv; exact h4 (vstack_inv _ _ hinv)
          · intro hinv; exact h5 (vstack_inv _ _ hinv)

theorem incRandLoop_ok_size (sampler : Sampler) (hs : IsValidSampler sampler)
    (orig : Nat) (rate : ℚ) :
    ∀ (n : Nat) (g : Graph) (res : AttackResult) (g' : Graph) (res' : AttackResult),
      g.nodes.Nodup →
      incRandLoop sampler orig rate n g res = (g', Except.ok res') →
      g.nodes.length = g'.nodes.length + n * pyCount orig rate ∧ g'.nodes.Nodup := by
  intro n
  induction n with
  | zero =>
      intro g res g' res' hnd h
      simp only [incRandLoop, Prod.mk.injEq, Except.ok.injEq] at h
      obtain ⟨rfl, -⟩ := h
      simp [hnd]
  | succ n ih =>
      intro g res g' res' hnd h
      rw [incRandLoop_succ] at h
      cases hstep : (random_failure_step sampler orig rate g).2 with
      | error e => rw [hstep] at h; simp at h
      | ok m =>
          rw [hstep] at h
          have hok : okB (random_failure_step sampler orig rate g).2 = true := by
            rw [hstep]; rfl
          obtain ⟨hsz, -, hnd1⟩ := random_step_ok sampler hs orig rate g hnd hok
          obtain ⟨hsz', hnd'⟩ := ih _ _ _ _ hnd1 h
          refine ⟨?_, hnd'⟩
          rw [Nat.succ_mul]
          omega

theorem instRandLoop_ok (sampler : Sampler) (net : Graph) (orig : Nat) :
    ∀ (rates : List ℚ) (res : AttackResult) (res' : AttackResult),
      instRandLoop sampler net orig rates res = Except.ok res' →
      res'.cluster_size_ratios.length = res.cluster_size_ratios.length + rates.length
      ∧ accRows res'.min_path = accRows res.min_path + rates.length
      ∧ accRows res'.max_path = accRows res.max_path + rates.length
      ∧ (accInv res.min_path → accInv res'.min_path)
      ∧ (accInv res.max_path → accInv res'.max_path) := by
  intro rates
  induction rates with
  | nil =>
      intro res res' h
      simp only [instRandLoop, Except.ok.injEq] at h
      subst h
      simp
  | cons r rest ih =>
      intro res res' h
      rw [show instRandLoop sampler net orig (r :: rest) res =
        (match (random_failure_step sampler orig r net).2 with
         | Except.error e => Except.error e
         | Except.ok metrics => instRandLoop sampler net orig rest (recordStep res metrics))
        from rfl] at h
      cases hstep : (random_failure_step sampler orig r net).2 with
      | error e => rw [hstep] at h; simp at h
      | ok m =>
          rw [hstep] at h
          obtain ⟨h1, h2, h3, h4, h5⟩ := ih _ _ h
          refine ⟨?_, ?_, ?_, ?_, ?_⟩
          · simp only [recordStep, List.length_append, List.length_singleton] at h1
            simp only [List.length_cons]
            omega
          · rw [h2]; simp only [recordStep, vstack_rows, List.length_cons]; omega
          · rw [h3]; simp only [recordStep, vstack_rows, List.length_cons]; omega
          · intro hinv; exact h4 (vstack_inv _ _ hinv)
          · intro hinv; exact h5 (vstack_inv _ _ hinv)

theorem instAttackLoop_ok (net : Graph) (orig : Nat) :
    ∀ (rates : List ℚ) (res : AttackResult) (res' : AttackResult),
      instAttackLoop net orig rates res = Except.ok res' →
      res'.cluster_size_ratios.length = res.cluster_size_ratios.length + rates.length
      ∧ accRows res'.min_path = accRows res.min_path + rates.length
      ∧ accRows res'.max_path = accRows res.max_path + rates.length
      ∧ (accInv res.min_path → accInv res'.min_path)
      ∧ (accInv res.max_path → accInv res'.max_path) := by
  intro rates
  induction rates with
  | nil =>
      intro res res' h
      simp only [instAttackLoop, Except.ok.injEq] at h
      subst h
      simp
  | cons r rest ih =>
      intro res res' h
      rw [show instAttackLoop net orig (r :: rest) res =
        (match (degree_attack_step orig r net).2 with
         | Except.error e => Except.error e
         | Except.ok metrics => instAttackLoop net orig rest (recordStep res metrics))
        from rfl] at h
      cases hstep : (degree_attack_step orig r net).2 with
      | error e => rw [hstep] at h; simp at h
      | ok m =>
          rw [hstep] at h
          obtain ⟨h1, h2, h3, h4, h5⟩ := ih _ _ h
          refine ⟨?_, ?_, ?_, ?_, ?_⟩
          · simp only [recordStep, List.length_append, List.length_singleton] at h1
            simp only [List.length_cons]
            omega
          · rw [h2]; simp only [recordStep, vstack_rows, List.length_cons]; omega
          · rw [h3]; simp only [recordStep, vstack_rows, List.length_cons]; omega
          · intro hinv; exact h4 (vstack_inv _ _ hinv)
          · intro hinv; exact h5 (vstack_inv _ _ hinv)

theorem incAttackLoop_succ (orig : Nat) (r : ℚ) (rest : List ℚ)
    (g : Graph) (res : AttackResult) :
    incAttackLoop orig (r :: rest) g res =
      (match (degree_attack_step orig r g).2 with
       | Except.error e => ((degree_attack_step orig r g).1, Except.error e)
       | Except.ok metrics =>
           incAttackLoop orig rest (degree_attack_step orig r g).1
             (recordStep res metrics)) := rfl

theorem incAttackLoop_ok (orig : Nat) :
    ∀ (rates : List ℚ) (g : Graph) (res : AttackResult) (g' : Graph) (res' : AttackResult),
      incAttackLoop orig rates g res = (g', Except.ok res') →
      res'.cluster_size_ratios.length = res.cluster_size_ratios.length + rates.length
      ∧ accRows res'.min_path = accRows res.min_path + rates.length
      ∧ accRows res'.max_path = accRows res.max_path + rates.length
      ∧ (accInv res.min_path → accInv res'.min_path)
      ∧ (accInv res.max_path → accInv res'.max_path) := by
  intro rates
  induction rates with
  | nil =>
      intro g res g' res' h
      simp only [incAttackLoop, Prod.mk.injEq, Except.ok.injEq] at h
      obtain ⟨-, rfl⟩ := h
      simp
  | cons r rest ih =>
      intro g res g' res' h
      rw [incAttackLoop_succ] at h
      cases hstep : (degree_attack_step orig r g).2 with
      | error e => rw [hstep] at h; simp at h
      | ok m =>
          rw [hstep] at h
          obtain ⟨h1, h2, h3, h4, h5⟩ := ih _ _ _ _ h
          refine ⟨?_, ?_, ?_, ?_, ?_⟩
          · simp only [recordStep, List.length_append, List.length_singleton] at h1
            simp only [List.length_cons]
            omega
          · rw [h2]; simp only [recordStep, vstack_rows, List.length_cons]; omega
          · rw [h3]; simp only [recordStep, vstack_rows, List.length_cons]; omega
          · intro hinv; exact h4 (vstack_inv _ _ hinv)
          · intro hinv; exact h5 (vstack_inv _ _ hinv)

theorem incAttackLoop_ok_size (orig : Nat) :
    ∀ (rates : List ℚ) (g : Graph) (res : AttackResult) (g' : Graph) (res' : AttackResult),
      g.nodes.Nodup →
      incAttackLoop orig rates g res = (g', Except.ok res') →
      g.nodes.length = g'.nodes.length + (rates.map (fun r => pyCount orig r)).sum
      ∧ g'.nodes.Nodup := by
  intro rates
  induction rates with
  | nil =>
      intro g res g' res' hnd h
      simp only [incAttackLoop, Prod.mk.injEq, Except.ok.injEq] at h
      obtain ⟨rfl, -⟩ := h
      simp [hnd]
  | cons r rest ih =>
      intro g res g' res' hnd h
      rw [incAttackLoop_succ] at h
      cases hstep : (degree_attack_step orig r g).2 with
      | error e => rw [hstep] at h; simp at h
      | ok m =>
          rw [hstep] at h
          have hok : okB (degree_attack_step orig r g).2 = true := by
            rw [hstep]; rfl
          obtain ⟨hsz, -, hnd1⟩ := degree_step_ok orig r g hnd hok
          obtain ⟨hsz', hnd'⟩ := ih _ _ _ _ hnd1 h
          refine ⟨?_, hnd'⟩
          simp only [List.map_cons, List.sum_cons]
          omega

/-! ### Remaining helper lemmas -/

theorem incAttackLoop_ne_overRemoval (orig : Nat) :
    ∀ (rates : List ℚ) (g : Graph) (res : AttackResult),
      (incAttackLoop orig rates g res).2 ≠ Except.error AttackError.overRemoval := by
  intro rates
  induction rates with
  | nil => intro g res hc; cases hc
  | cons r rest ih =>
      intro g res
      rw [incAttackLoop_succ]
      cases hstep : (degree_attack_step orig r g).2 with
      | error e =>
          intro hc
          simp only at hc
          cases hc
          exact get_attack_metrics_ne_overRemoval _ hstep
      | ok m => exact ih _ _

theorem instAttackLoop_ne_overRemoval (net : Graph) (orig : Nat) :
    ∀ (rates : List ℚ) (res : AttackResult),
      instAttackLoop net orig rates res ≠ Except.error AttackError.overRemoval := by
  intro rates
  induction rates with
  | nil => intro res hc; cases hc
  | cons r rest ih =>
      intro res
      rw [show instAttackLoop net orig (r :: rest) res =
        (match (degree_attack_step orig r net).2 with
         | Except.error e => Except.error e
         | Except.ok metrics => instAttackLoop net orig rest (recordStep res metrics))
        from rfl]
      cases hstep : (degree_attack_step orig r net).2 with
      | error e =>
          intro hc
          simp only at hc
          cases hc
          exact get_attack_metrics_ne_overRemoval _ hstep
      | ok m => exact ih _

/-! ### Claim theorems -/

/-- C2: for every connected graph (connectivity entails at least one node),
`get_attack_metrics` returns the cluster-size summary `(1.0, 1.0)`: the
relative size of the largest cluster and the average size of isolated
clusters are both the literal `1.0` (the second slot doubles as the
no-other-clusters sentinel). -/
theorem C2_connected_cluster_sizes (net : Graph)
    (h : net.is_connected = Except.ok true) :
    clusterOf (get_attack_metrics net) = some (1, 1) := by
  simp [get_attack_metrics, h, clusterOf]

/-- C2 witness: the 5-clique of the spec's end-to-end scenario 2. -/
theorem C2_connected_cluster_sizes_witness :
    clusterOf (get_attack_metrics K5) = some (1, 1) :=
  C2_connected_cluster_sizes K5 (by decide)

/-- C3: on a graph with zero nodes `get_attack_metrics` fails with the
empty-graph error (the `nx.is_connected` exception on the null graph) and
returns no metrics result. -/
theorem C3_empty_graph_error (net : Graph) (h : net.nodes = []) :
    get_attack_metrics net = Except.error AttackError.emptyGraph :=
  get_attack_metrics_empty net h

/-- C3 witness: the empty graph. -/
theorem C3_empty_graph_error_witness :
    get_attack_metrics ⟨[], []⟩ = Except.error AttackError.emptyGraph :=
  C3_empty_graph_error ⟨[], []⟩ rfl

/-- C6: the instantaneous strategies leave the caller's graph untouched — the
caller-visible graph (and in particular its node set) after any run is the
original, because each step mutates only a fresh deep copy. -/
theorem C6_instantaneous_no_mutation (sampler : Sampler) (net : Graph)
    (removal_rates : List ℚ) :
    (instantaneous_random_failure sampler net removal_rates).1 = net
    ∧ (instantaneous_random_failure sampler net removal_rates).1.nodes = net.nodes
    ∧ (instantaneous_attack net removal_rates).1 = net
    ∧ (instantaneous_attack net removal_rates).1.nodes = net.nodes :=
  ⟨rfl, rfl, rfl, rfl⟩

/-- C9: for every non-empty sample the summarised quantile row has exactly 3
entries in the order `(q25, mean, q75)`: the middle slot is overwritten with
the arithmetic mean of the sample (not the estimator's natural median), and
every step of every strategy records exactly such rows for both the
shortest-path and the eccentricity sample (`recordStep`). -/
theorem C9_summarize_mean (s : List ℚ) (h : s ≠ []) :
    (summarize s).length = 3
    ∧ (summarize s).get? 1 = some (s.sum / (s.length : ℚ))
    ∧ summarize s = [mquantile1 s (1/4), s.sum / (s.length : ℚ), mquantile1 s (3/4)]
    ∧ (∀ res m, (recordStep res m).min_path
        = vstackAppend res.min_path (summarize (m.shortest_paths.map (fun n => (n : ℚ)))))
    ∧ (∀ res m, (recordStep res m).max_path
        = vstackAppend res.max_path (summarize (m.eccentricities.map (fun n => (n : ℚ))))) := by
  have hm : npMean s = s.sum / (s.length : ℚ) := by
    unfold npMean
    rw [if_neg (by simpa using h)]
  refine ⟨?_, ?_, ?_, fun res m => rfl, fun res m => rfl⟩
  · simp [summarize, mquantiles]
  · simp [summarize, mquantiles, hm]
  · simp [summarize, mquantiles, hm]

/-- C9 witness: the sample `[1, 2, 3]`, whose mean is 2. -/
theorem C9_summarize_mean_witness :
    (summarize [(1 : ℚ), 2, 3]).get? 1 = some 2 := by
  have h := (C9_summarize_mean [(1 : ℚ), 2, 3] (by decide)).2.1
  rw [h]
  decide

/-- C1 counterexample: `incremental_attack` does not take a removal-rate
scalar with a max-rate cap — it consumes an explicit rate sequence and runs
one step per entry.  With every entry equal to `0.25` and the module's default
cap `0.5` (under which the claim demands `floor(0.5/0.25) = 2` steps), a
3-entry sequence runs 3 steps. -/
theorem C1_counterexample :
    okStepCount (incremental_attack K4 [1/4, 1/4, 1/4]) = some 3
    ∧ (pyInt ((1/2 : ℚ) / (1/4))).toNat = 2 :=
  ⟨by decide, by decide⟩

/-- C1 amended: `incremental_random_failure` takes the removal-rate scalar
plus the max-rate cap and any successful run performs exactly
`int(max_rate / removal_rate)` steps (2 steps for `0.25` and `0.5`,
whatever the graph), while `incremental_attack` takes an explicit rate
sequence and performs one step per entry. -/
theorem C1_amended_step_counts (sampler : Sampler) (net netA : Graph)
    (removal_rate max_rate : ℚ) (rates : List ℚ)
    (h1 : okB (incremental_random_failure sampler net removal_rate max_rate).2 = true)
    (h2 : okB (incremental_attack netA rates).2 = true) :
    okStepCount (incremental_random_failure sampler net removal_rate max_rate)
      = some (pyInt (max_rate / removal_rate)).toNat
    ∧ okStepCount (incremental_attack netA rates) = some rates.length := by
  constructor
  · unfold incremental_random_failure at h1 ⊢
    cases hrun : incRandLoop sampler net.nodes.length removal_rate
        (pyInt (max_rate / removal_rate)).toNat net emptyResult with
    | mk g' ex =>
        cases ex with
        | error e => rw [hrun] at h1; simp [okB] at h1
        | ok res' =>
            have hcount := (incRandLoop_ok sampler _ _ _ _ _ _ _ hrun).1
            simp [okStepCount, hcount, emptyResult]
  · unfold incremental_attack at h2 ⊢
    cases hrun : incAttackLoop netA.nodes.length rates netA emptyResult with
    | mk g' ex =>
        cases ex with
        | error e => rw [hrun] at h2; simp [okB] at h2
        | ok res' =>
            have hcount := (incAttackLoop_ok _ _ _ _ _ _ hrun).1
            simp [okStepCount, hcount, emptyResult]

/-- C1 witness: a 2-step `incremental_random_failure` run at rates
`(0.25, 0.5)` and a 1-entry `incremental_attack` run, both on the 4-clique. -/
theorem C1_amended_step_counts_witness :
    okStepCount (incremental_random_failure takeSampler K4 (1/4) (1/2)) = some 2
    ∧ okStepCount (incremental_attack K4 [1/4]) = some 1 := by
  have h := C1_amended_step_counts takeSampler K4 K4 (1/4) (1/2) [1/4]
    (by decide) (by decide)
  refine ⟨?_, ?_⟩
  · rw [h.1]
    decide
  · rw [h.2]
    rfl

/-- C4 counterexample: over-removal is neither validated before the loop nor
free of side effects.  `incremental_random_failure` on the 5-node path with
`removal_rate = 0.4, max_rate = 1.6` schedules
`int(1.6 / 0.4) = 4` steps (the double quotient is exactly `4.0`: both
literals share the significand `0x1.999999999999a`, so the division is
exact, as is `int(5 * 0.4) = 2`) and raises the over-removal error only at
step 3, by which time the caller's graph has been shrunk from 5 nodes to 1;
and `instantaneous_attack` with a rate entry of `2.0` silently clamps the
selection (no over-removal error at all — the emptied graph then fails the
metrics extraction with the empty-graph error instead). -/
theorem C4_counterexample :
    errOf (incremental_random_failure takeSampler P5 (2/5) (8/5))
      = some AttackError.overRemoval
    ∧ (incremental_random_failure takeSampler P5 (2/5) (8/5)).1.nodes.length = 1
    ∧ P5.nodes.length = 5
    ∧ errOf (instantaneous_attack K3 [2]) = some AttackError.emptyGraph :=
  ⟨by decide, by decide, by decide, by decide⟩

/-- C4 amended: a step whose requested removal count exceeds the available
node count raises the over-removal error in the random-selection strategies
at that step (mid-loop, with earlier removals left in place — see the
counterexample); the degree-targeted strategies never raise it, silently
clamping the selection to the available nodes instead. -/
theorem C4_amended_over_removal (sampler : Sampler) (hs : IsValidSampler sampler)
    (net netA netB : Graph) (r : ℚ) (ratesA ratesB : List ℚ)
    (hover : net.nodes.length < pyCount net.nodes.length r) :
    errOf (instantaneous_random_failure sampler net [r]) = some AttackError.overRemoval
    ∧ (instantaneous_random_failure sampler net [r]).1 = net
    ∧ errOf (incremental_attack netA ratesA) ≠ some AttackError.overRemoval
    ∧ errOf (instantaneous_attack netB ratesB) ≠ some AttackError.overRemoval := by
  have hsamp := hs.error_of_gt net.nodes _ hover
  have hstep : (random_failure_step sampler net.nodes.length r net).2
      = Except.error AttackError.overRemoval := by
    simp [random_failure_step, hsamp]
  refine ⟨?_, rfl, ?_, ?_⟩
  · show errOf (net, instRandLoop sampler net net.nodes.length [r] emptyResult) = _
    rw [show instRandLoop sampler net net.nodes.length [r] emptyResult =
      (match (random_failure_step sampler net.nodes.length r net).2 with
       | Except.error e => Except.error e
       | Except.ok metrics =>
           instRandLoop sampler net net.nodes.length [] (recordStep emptyResult metrics))
      from rfl, hstep]
    rfl
  · unfold incremental_attack
    cases hrun : incAttackLoop netA.nodes.length ratesA netA emptyResult with
    | mk g' ex =>
        cases ex with
        | error e =>
            have hne := incAttackLoop_ne_overRemoval netA.nodes.length ratesA netA emptyResult
            rw [hrun] at hne
            intro hc
            simp only [errOf, Option.some.injEq] at hc
            exact hne (by rw [hc])
        | ok res' => intro hc; cases hc
  · unfold instantaneous_attack
    cases hrun : instAttackLoop netB netB.nodes.length ratesB emptyResult with
    | error e =>
        have hne := instAttackLoop_ne_overRemoval netB netB.nodes.length ratesB emptyResult
        rw [hrun] at hne
        intro hc
        simp only [errOf, Option.some.injEq] at hc
        exact hne (by rw [hc])
    | ok res' => intro hc; cases hc

/-- C4 witness: the triangle with a rate entry of `2.0` (requested count 6
against 3 available nodes). -/
theorem C4_amended_over_removal_witness :
    errOf (instantaneous_random_failure takeSampler K3 [2]) = some AttackError.overRemoval
    ∧ (instantaneous_random_failure takeSampler K3 [2]).1 = K3 := by
  have h := C4_amended_over_removal takeSampler takeSampler_valid K3 K3 K3 2 [1/2] [1/2]
    (by decide)
  exact ⟨h.1, h.2.1⟩

/-- C5: every strategy computes each step's removal count as
`int(original_node_count * rate)` with the original (pristine) node count as
the baseline, never the shrunken current size: every successful step of the
shared random and degree-targeted step bodies shrinks the current graph by
exactly `pyCount orig rate` where `orig` is the fixed baseline parameter, and
over a whole successful incremental run the node count drops by the number of
steps times that fixed per-step count. -/
theorem C5_removal_counts_use_original_size (sampler : Sampler) (hs : IsValidSampler sampler)
    (orig : Nat) (rate : ℚ) (g net netA : Graph) (max_rate : ℚ) (rates : List ℚ)
    (hnd : g.nodes.Nodup) (hnet : net.nodes.Nodup) (hnetA : netA.nodes.Nodup)
    (h1 : okB (random_failure_step sampler orig rate g).2 = true)
    (h2 : okB (degree_attack_step orig rate g).2 = true)
    (h3 : okB (incremental_random_failure sampler net rate max_rate).2 = true)
    (h4 : okB (incremental_attack netA rates).2 = true) :
    (random_failure_step sampler orig rate g).1.nodes.length + pyCount orig rate
      = g.nodes.length
    ∧ (degree_attack_step orig rate g).1.nodes.length + pyCount orig rate = g.nodes.length
    ∧ net.nodes.length = (incremental_random_failure sampler net rate max_rate).1.nodes.length
        + (pyInt (max_rate / rate)).toNat * pyCount net.nodes.length rate
    ∧ netA.nodes.length = (incremental_attack netA rates).1.nodes.length
        + (rates.map (fun r => pyCount netA.nodes.length r)).sum := by
  refine ⟨(random_step_ok sampler hs orig rate g hnd h1).1,
          (degree_step_ok orig rate g hnd h2).1, ?_, ?_⟩
  · unfold incremental_random_failure at h3 ⊢
    cases hrun : incRandLoop sampler net.nodes.length rate
        (pyInt (max_rate / rate)).toNat net emptyResult with
    | mk g' ex =>
        cases ex with
        | error e => rw [hrun] at h3; simp [okB] at h3
        | ok res' => exact (incRandLoop_ok_size sampler hs _ _ _ _ _ _ _ hnet hrun).1
  · unfold incremental_attack at h4 ⊢
    cases hrun : incAttackLoop netA.nodes.length rates netA emptyResult with
    | mk g' ex =>
        cases ex with
        | error e => rw [hrun] at h4; simp [okB] at h4
        | ok res' => exact (incAttackLoop_ok_size _ _ _ _ _ _ hnetA hrun).1

/-- C5 witness: one random and one degree-targeted step on the 4-clique, a
2-step `incremental_random_failure` run on the 5-path and a 1-entry
`incremental_attack` run on the 4-clique. -/
theorem C5_removal_counts_use_original_size_witness :
    (random_failure_step takeSampler 4 (1/4) K4).1.nodes.length + pyCount 4 (1/4)
      = K4.nodes.length
    ∧ (degree_attack_step 4 (1/4) K4).1.nodes.length + pyCount 4 (1/4) = K4.nodes.length
    ∧ P5.nodes.length = (incremental_random_failure takeSampler P5 (1/4) (1/2)).1.nodes.length
        + (pyInt ((1/2) / (1/4))).toNat * pyCount P5.nodes.length (1/4)
    ∧ K4.nodes.length = (incremental_attack K4 [1/4]).1.nodes.length
        + ([(1 : ℚ)/4].map (fun r => pyCount K4.nodes.length r)).sum :=
  C5_removal_counts_use_original_size takeSampler takeSampler_valid 4 (1/4) K4 P5 K4
    (1/2) [1/4] (by decide) (by decide) (by decide) (by decide) (by decide) (by decide)
    (by decide)

/-- C7 counterexample: with a 3-node graph and `removal_rate = 0.25`
(`int(3 * 0.25) = 0`), a 2-step `incremental_random_failure` run completes
with the node set unchanged — the node count does not strictly decrease at
each step. -/
theorem C7_counterexample :
    okStepCount (incremental_random_failure takeSampler K3 (1/4) (1/2)) = some 2
    ∧ (incremental_random_failure takeSampler K3 (1/4) (1/2)).1 = K3 :=
  ⟨by decide, by decide⟩

/-- C7 amended: each successful incremental step removes exactly
`int(original_size * removal_rate)` nodes, and whenever that count is
positive the step's node count strictly decreases and the post-step node set
is a (then strict) subset of the pre-step node set; with a count of zero the
node set is unchanged. -/
theorem C7_amended_strict_decrease (sampler : Sampler) (hs : IsValidSampler sampler)
    (orig : Nat) (rate : ℚ) (g : Graph) (hnd : g.nodes.Nodup)
    (hpos : 0 < pyCount orig rate)
    (h1 : okB (random_failure_step sampler orig rate g).2 = true)
    (h2 : okB (degree_attack_step orig rate g).2 = true) :
    ((random_failure_step sampler orig rate g).1.nodes.length + pyCount orig rate
        = g.nodes.length
      ∧ (random_failure_step sampler orig rate g).1.nodes.length < g.nodes.length
      ∧ ∀ x ∈ (random_failure_step sampler orig rate g).1.nodes, x ∈ g.nodes)
    ∧ ((degree_attack_step orig rate g).1.nodes.length + pyCount orig rate = g.nodes.length
      ∧ (degree_attack_step orig rate g).1.nodes.length < g.nodes.length
      ∧ ∀ x ∈ (degree_attack_step orig rate g).1.nodes, x ∈ g.nodes) := by
  obtain ⟨ha1, ha2, -⟩ := random_step_ok sampler hs orig rate g hnd h1
  obtain ⟨hb1, hb2, -⟩ := degree_step_ok orig rate g hnd h2
  exact ⟨⟨ha1, by omega, ha2⟩, ⟨hb1, by omega, hb2⟩⟩

/-- C7 witness: one step at removal count `int(4 * 0.25) = 1` on the
4-clique. -/
theorem C7_amended_strict_decrease_witness :
    ((random_failure_step takeSampler 4 (1/4) K4).1.nodes.length + pyCount 4 (1/4)
        = K4.nodes.length
      ∧ (random_failure_step takeSampler 4 (1/4) K4).1.nodes.length < K4.nodes.length
      ∧ ∀ x ∈ (random_failure_step takeSampler 4 (1/4) K4).1.nodes, x ∈ K4.nodes)
    ∧ ((degree_attack_step 4 (1/4) K4).1.nodes.length + pyCount 4 (1/4) = K4.nodes.length
      ∧ (degree_attack_step 4 (1/4) K4).1.nodes.length < K4.nodes.length
      ∧ ∀ x ∈ (degree_attack_step 4 (1/4) K4).1.nodes, x ∈ K4.nodes) :=
  C7_amended_strict_decrease takeSampler takeSampler_valid 4 (1/4) K4 (by decide)
    (by decide) (by decide) (by decide)

/-- C8: in the degree-targeted step shared by `instantaneous_attack` and
`incremental_attack`, the removed set is a true top-`count` by degree: every
removed node's degree (in the pre-step graph) is at least the degree of every
retained node, ties being broken by encounter order through the stable sort. -/
theorem C8_top_degree_selection (orig : Nat) (rate : ℚ) (g : Graph) (x y : Nat)
    (hx : x ∈ selectTopDegree g (pyCount orig rate))
    (hy : y ∈ (degree_attack_step orig rate g).1.nodes) :
    g.degree y ≤ g.degree x := by
  have hy' : y ∈ g.nodes.filter (fun v => decide (v ∉ selectTopDegree g (pyCount orig rate))) :=
    hy
  have hyg : y ∈ g.nodes := (List.mem_filter.mp hy').1
  have hyn : y ∉ selectTopDegree g (pyCount orig rate) := by
    have := (List.mem_filter.mp hy').2
    simpa using this
  exact selectTopDegree_dominates g _ x hx y hyg hyn

/-- C8 witness: the star graph — the centre (degree 3) is selected, the
retained leaves have degree 1. -/
theorem C8_top_degree_selection_witness :
    0 ∈ selectTopDegree Star4 (pyCount 4 (1/4))
    ∧ 1 ∈ (degree_attack_step 4 (1/4) Star4).1.nodes
    ∧ Star4.degree 1 ≤ Star4.degree 0 :=
  ⟨by decide, by decide, C8_top_degree_selection 4 (1/4) Star4 0 1 (by decide) (by decide)⟩

/-- C10: the public result shape depends on the step count: a successful
one-step run returns the bare 3-entry quantile row for both the shortest-path
and the eccentricity accumulator, and only from the second step onward do the
accumulators become stacked 2-D arrays with one row per step (`summarize`
rows always have 3 entries). -/
theorem C10_result_shape (sampler : Sampler) (net netB netC netD : Graph)
    (removal_rate max_rate : ℚ) (ratesB ratesC ratesD : List ℚ)
    (h1 : okB (incremental_random_failure sampler net removal_rate max_rate).2 = true)
    (h2 : okB (instantaneous_random_failure sampler netB ratesB).2 = true)
    (h3 : okB (instantaneous_attack netC ratesC).2 = true)
    (h4 : okB (incremental_attack netD ratesD).2 = true) :
    (∀ s : List ℚ, (summarize s).length = 3)
    ∧ okMinShape (incremental_random_failure sampler net removal_rate max_rate)
        = some (decide ((pyInt (max_rate / removal_rate)).toNat = 1),
                (pyInt (max_rate / removal_rate)).toNat)
    ∧ okMaxShape (incremental_random_failure sampler net removal_rate max_rate)
        = some (decide ((pyInt (max_rate / removal_rate)).toNat = 1),
                (pyInt (max_rate / removal_rate)).toNat)
    ∧ okMinShape (instantaneous_random_failure sampler netB ratesB)
        = some (decide (ratesB.length = 1), ratesB.length)
    ∧ okMaxShape (instantaneous_random_failure sampler netB ratesB)
        = some (decide (ratesB.length = 1), ratesB.length)
    ∧ okMinShape (instantaneous_attack netC ratesC)
        = some (decide (ratesC.length = 1), ratesC.length)
    ∧ okMaxShape (instantaneous_attack netC ratesC)
        = some (decide (ratesC.length = 1), ratesC.length)
    ∧ okMinShape (incremental_attack netD ratesD)
        = some (decide (ratesD.length = 1), ratesD.length)
    ∧ okMaxShape (incremental_attack netD ratesD)
        = some (decide (ratesD.length = 1), ratesD.length) := by
  refine ⟨fun s => by simp [summarize, mquantiles], ?_, ?_, ?_, ?_, ?_, ?_, ?_, ?_⟩
  · unfold incremental_random_failure at h1 ⊢
    cases hrun : incRandLoop sampler net.nodes.length removal_rate
        (pyInt (max_rate / removal_rate)).toNat net emptyResult with
    | mk g' ex =>
        cases ex with
        | error e => rw [hrun] at h1; simp [okB] at h1
        | ok res' =>
            obtain ⟨-, hrow, -, hinv, -⟩ := incRandLoop_ok sampler _ _ _ _ _ _ _ hrun
            have hflat := (hinv accInv_none).1
            simp only [emptyResult, accRows_none, Nat.zero_add] at hrow
            simp [okMinShape, hflat, hrow]
  · unfold incremental_random_failure at h1 ⊢
    cases hrun : incRandLoop sampler net.nodes.length removal_rate
        (pyInt (max_rate / removal_rate)).toNat net emptyResult with
    | mk g' ex =>
        cases ex with
        | error e => rw [hrun] at h1; simp [okB] at h1
        | ok res' =>
            obtain ⟨-, -, hrow, -, hinv⟩ := incRandLoop_ok sampler _ _ _ _ _ _ _ hrun
            have hflat := (hinv accInv_none).1
            simp only [emptyResult, accRows_none, Nat.zero_add] at hrow
            simp [okMaxShape, hflat, hrow]
  · unfold instantaneous_random_failure at h2 ⊢
    cases hrun : instRandLoop sampler netB netB.nodes.length ratesB emptyResult with
    | error e => rw [hrun] at h2; simp [okB] at h2
    | ok res' =>
        obtain ⟨-, hrow, -, hinv, -⟩ := instRandLoop_ok sampler _ _ _ _ _ hrun
        have hflat := (hinv accInv_none).1
        simp only [emptyResult, accRows_none, Nat.zero_add] at hrow
        simp [okMinShape, hrun, hflat, hrow]
  · unfold instantaneous_random_failure at h2 ⊢
    cases hrun : instRandLoop sampler netB netB.nodes.length ratesB emptyResult with
    | error e => rw [hrun] at h2; simp [okB] at h2
    | ok res' =>
        obtain ⟨-, -, hrow, -, hinv⟩ := instRandLoop_ok sampler _ _ _ _ _ hrun
        have hflat := (hinv accInv_none).1
        simp only [emptyResult, accRows_none, Nat.zero_add] at hrow
        simp [okMaxShape, hrun, hflat, hrow]
  · unfold instantaneous_attack at h3 ⊢
    cases hrun : instAttackLoop netC netC.nodes.length ratesC emptyResult with
    | error e => rw [hrun] at h3; simp [okB] at h3
    | ok res' =>
        obtain ⟨-, hrow, -, hinv, -⟩ := instAttackLoop_ok _ _ _ _ _ hrun
        have hflat := (hinv accInv_none).1
        simp only [emptyResult, accRows_none, Nat.zero_add] at hrow
        simp [okMinShape, hrun, hflat, hrow]
  · unfold instantaneous_attack at h3 ⊢
    cases hrun : instAttackLoop netC netC.nodes.length ratesC emptyResult with
    | error e => rw [hrun] at h3; simp [okB] at h3
    | ok res' =>
        obtain ⟨-, -, hrow, -, hinv⟩ := instAttackLoop_ok _ _ _ _ _ hrun
        have hflat := (hinv accInv_none).1
        simp only [emptyResult, accRows_none, Nat.zero_add] at hrow
        simp [okMaxShape, hrun, hflat, hrow]
  · unfold incremental_attack at h4 ⊢
    cases hrun : incAttackLoop netD.nodes.length ratesD netD emptyResult with
    | mk g' ex =>
        cases ex with
        | error e => rw [hrun] at h4; simp [okB] at h4
        | ok res' =>
            obtain ⟨-, hrow, -, hinv, -⟩ := incAttackLoop_ok _ _ _ _ _ _ hrun
            have hflat := (hinv accInv_none).1
            simp only [emptyResult, accRows_none, Nat.zero_add] at hrow
            simp [okMinShape, hflat, hrow]
  · unfold incremental_attack at h4 ⊢
    cases hrun : incAttackLoop netD.nodes.length ratesD netD emptyResult with
    | mk g' ex =>
        cases ex with
        | error e => rw [hrun] at h4; simp [okB] at h4
        | ok res' =>
            obtain ⟨-, -, hrow, -, hinv⟩ := incAttackLoop_ok _ _ _ _ _ _ hrun
            have hflat := (hinv accInv_none).1
            simp only [emptyResult, accRows_none, Nat.zero_add] at hrow
            simp [okMaxShape, hflat, hrow]

/-- C10 witness: a one-step `incremental_random_failure` run yields the bare
row (flat, 1 row); a two-entry `incremental_attack` run yields a stacked
2-row array; both on the 4-clique. -/
theorem C10_result_shape_witness :
    okMinShape (incremental_random_failure takeSampler K4 (1/4) (1/4)) = some (true, 1)
    ∧ okMinShape (incremental_attack K4 [1/4, 1/4]) = some (false, 2) := by
  have h := C10_result_shape takeSampler K4 K4 K4 K4 (1/4) (1/4) [1/4] [1/4] [1/4, 1/4]
    (by decide) (by decide) (by decide) (by decide)
  obtain ⟨-, hmin, -, -, -, -, -, hminD, -⟩ := h
  constructor
  · rw [hmin]
    decide
  · rw [hminD]
    rfl

end NetworkAttacks
